import Mathlib

/-!
Verification of the AEGIS side-channel teaching simulators.

The development shallowly embeds the statistical core of the repository:

* the cache flush+reload timing simulator and its key-recovery routine
  (cache_sim.py and sims/cache_sim.py),
* the early-exit password-comparison timing simulator (sims/timing_sim.py),
* the Hamming-weight power simulator (hamming_power_sim.py and
  sims/hamming_power_sim.py).

Python floats are modelled as rationals.  A draw from the Gaussian
np.random.normal(0, std) is modelled as std * u, where u stands for the
underlying standard-normal draw: this captures exactly the fact that a zero
standard deviation yields the deterministic draw 0, while leaving the draw
otherwise arbitrary.  Stateful methods are embedded as functions that return
the updated state explicitly.
-/

/-- Model of one draw from np.random.normal(0, std): std times a
standard-normal draw u.  With std = 0 the draw is exactly 0, as in numpy. -/
def gaussian_noise (std u : ℚ) : ℚ := std * u

/-- State of the CacheTimeSimulator classes of cache_sim.py and
sims/cache_sim.py (both store exactly these three parameters). -/
structure CacheTimeSimulator where
  hit_cycles : ℚ
  miss_cycles : ℚ
  noise_std : ℚ

/-- The constructor of CacheTimeSimulator: it performs no validation and can
never fail, so the fallible embedding always returns ok. -/
def CacheTimeSimulator.make (hit_cycles miss_cycles noise_std : ℚ) :
    Except String CacheTimeSimulator :=
  .ok ⟨hit_cycles, miss_cycles, noise_std⟩

/-- CacheTimeSimulator.calculate_timing from cache_sim.py: hit latency when
the accessed S-box index equals the monitored index, miss latency otherwise,
plus Gaussian jitter, clamped below at 0. -/
def CacheTimeSimulator.calculate_timing (sim : CacheTimeSimulator)
    (sbox_index monitored_index : Nat) (u : ℚ) : ℚ :=
  let base_time :=
    if sbox_index = monitored_index then sim.hit_cycles else sim.miss_cycles
  max 0 (base_time + gaussian_noise sim.noise_std u)

/-- CacheTimeSimulator.simulate_batch from sims/cache_sim.py.  The random
plaintexts and the standard-normal draws are passed in explicitly; the result
is the pair (plaintexts, timings), where each timing is the hit latency when
plaintext XOR secret_key equals the monitored index and the miss latency
otherwise, plus jitter, clamped below at 0. -/
def CacheTimeSimulator.simulate_batch (sim : CacheTimeSimulator)
    (plaintexts : List Nat) (secret_key monitored_index : Nat)
    (us : List ℚ) : List Nat × List ℚ :=
  (plaintexts, (plaintexts.zip us).map (fun pu =>
    let base :=
      if pu.1 ^^^ secret_key = monitored_index then sim.hit_cycles
      else sim.miss_cycles
    max 0 (base + gaussian_noise sim.noise_std pu.2)))

/-- np.bincount over natural numbers with a minlength argument: entry k of
the result counts the occurrences of k. -/
def bincount (l : List Nat) (minlength : Nat) : List Nat :=
  let len := if l.isEmpty then minlength else max minlength (l.foldl max 0 + 1)
  (List.range len).map (fun k => l.count k)

/-- np.argmax over a list of counts: the index of the first occurrence of the
maximum value (first-occurrence tie-break, as in numpy). -/
def np_argmax (l : List Nat) : Nat := l.indexOf (l.foldl max 0)

/-- The fast-trace filter of recover_key: the plaintexts of the samples whose
timing is strictly below the threshold (step 1 of CacheAttacker.recover_key,
and likewise the fast-sample set the specification describes). -/
def fast_inputs (plaintexts : List Nat) (timings : List ℚ)
    (threshold : ℚ) : List Nat :=
  ((plaintexts.zip timings).filter (fun pr => pr.2 < threshold)).map Prod.fst

/-- CacheAttacker.recover_key from sims/cache_sim.py: filter the samples whose
timing is strictly below the threshold, return (-1, 0) when none remain,
otherwise XOR each fast plaintext with the monitored index, tally the guesses
with bincount(minlength 256), and return the argmax together with its
relative frequency among the fast samples. -/
def recover_key (plaintexts : List Nat) (timings : List ℚ)
    (monitored_index : Nat) (threshold : ℚ) : Int × ℚ :=
  let fast_plaintexts := fast_inputs plaintexts timings threshold
  if fast_plaintexts.isEmpty then (-1, 0)
  else
    let key_guesses := fast_plaintexts.map (fun p => p ^^^ monitored_index)
    let counts := bincount key_guesses 256
    let likely_key := np_argmax counts
    ((likely_key : Int),
      ((counts.getD likely_key 0 : ℚ) / (key_guesses.length : ℚ)))

/-- The tally of key hypotheses recover_key votes over: how often the value k
arises as fast plaintext XOR monitored index (the frequency table the
specification describes). -/
def guess_tally (plaintexts : List Nat) (timings : List ℚ)
    (monitored_index : Nat) (threshold : ℚ) (k : Nat) : Nat :=
  ((fast_inputs plaintexts timings threshold).map
    (fun p => p ^^^ monitored_index)).count k

/-- State of TimingSimulator from sims/timing_sim.py. -/
structure TimingSimulator where
  base_time : ℚ
  char_delay : ℚ
  jitter_std : ℚ

/-- The constructor of TimingSimulator: no validation, can never fail. -/
def TimingSimulator.make (base_time char_delay jitter_std : ℚ) :
    Except String TimingSimulator :=
  .ok ⟨base_time, char_delay, jitter_std⟩

/-- The comparison loop of vulnerable_compare: walk the two strings in
lockstep over their common length, adding char_delay for each visited
position, and stop right after the first mismatching position. -/
def compare_loop (char_delay : ℚ) : List Char → List Char → ℚ
  | s :: ss, c :: cs =>
    if s = c then char_delay + compare_loop char_delay ss cs else char_delay
  | _, _ => 0

/-- TimingSimulator.vulnerable_compare from sims/timing_sim.py: base time plus
the early-exit comparison loop time plus Gaussian jitter, clamped at 0. -/
def TimingSimulator.vulnerable_compare (sim : TimingSimulator)
    (secret user_input : List Char) (u : ℚ) : ℚ :=
  max 0 (sim.base_time + compare_loop sim.char_delay secret user_input
    + gaussian_noise sim.jitter_std u)

/-- State of HammingPowerSimulator from hamming_power_sim.py, including its
mutable previous_value field. -/
structure HammingPowerSimulator where
  bit_width : Nat
  base_power : ℚ
  transition_power : ℚ
  leakage_power : ℚ
  previous_value : Nat

/-- Fuel-driven population count; with fuel at least the value itself it
computes the number of 1 bits of the binary representation. -/
def popcount_fuel : Nat → Nat → Nat
  | 0, _ => 0
  | _ + 1, 0 => 0
  | fuel + 1, n + 1 => (n + 1) % 2 + popcount_fuel fuel ((n + 1) / 2)

/-- HammingPowerSimulator.hamming_weight: the number of 1 bits of the binary
representation, as computed by bin(value).count applied to the 1 digit. -/
def hamming_weight (value : Nat) : Nat := popcount_fuel value value

/-- HammingPowerSimulator.hamming_distance: number of differing bits. -/
def hamming_distance (val1 val2 : Nat) : Nat := hamming_weight (val1 ^^^ val2)

/-- HammingPowerSimulator.calculate_power from hamming_power_sim.py.  The
optional previous_value argument defaults to the stored field; the power is
base plus leakage times the Hamming weight of the current value plus
transition power times the Hamming distance to the previous value.  The
stored previous_value field is then overwritten with current_value; the
updated simulator state is returned alongside the power. -/
def HammingPowerSimulator.calculate_power (sim : HammingPowerSimulator)
    (current_value : Nat) (previous_value : Option Nat) :
    ℚ × HammingPowerSimulator :=
  let prev := previous_value.getD sim.previous_value
  let transitions := hamming_distance current_value prev
  let active_bits := hamming_weight current_value
  let power := sim.base_power + sim.leakage_power * (active_bits : ℚ)
    + sim.transition_power * (transitions : ℚ)
  (power, { sim with previous_value := current_value })

/-- The loop body of simulate_sequence: apply calculate_power to each value in
order, threading the simulator state. -/
def simulate_from : HammingPowerSimulator → List Nat →
    List ℚ × HammingPowerSimulator
  | sim, [] => ([], sim)
  | sim, v :: vs =>
    let step := sim.calculate_power v none
    let rest := simulate_from step.2 vs
    (step.1 :: rest.1, rest.2)

/-- HammingPowerSimulator.simulate_sequence from hamming_power_sim.py: reset
previous_value to 0 when requested, then run calculate_power over the data
sequence in order. -/
def HammingPowerSimulator.simulate_sequence (sim : HammingPowerSimulator)
    (data_sequence : List Nat) (reset : Bool) :
    List ℚ × HammingPowerSimulator :=
  simulate_from (if reset then { sim with previous_value := 0 } else sim)
    data_sequence

/-- The password and the all-mismatch guess used by the timing claims. -/
def admin_chars : List Char := ['a', 'd', 'm', 'i', 'n']

/-- A same-length guess sharing no character with the password. -/
def xxxxx_chars : List Char := ['x', 'x', 'x', 'x', 'x']

/-- Claim C1: with noise_std = 0 (and nonnegative latencies, so that the
clamp at 0 is inactive), every cache measurement is exactly hit_cycles when
input XOR secret_key equals the monitored index and exactly miss_cycles
otherwise, for calculate_timing as well as for every entry of a
simulate_batch run. -/
theorem C1_cache_noise_free_exact
    (sim : CacheTimeSimulator) (h0 : sim.noise_std = 0)
    (hh : 0 ≤ sim.hit_cycles) (hm : 0 ≤ sim.miss_cycles)
    (input secret_key monitored_index : Nat) (u : ℚ)
    (plaintexts : List Nat) (us : List ℚ) :
    sim.calculate_timing (input ^^^ secret_key) monitored_index u
      = (if input ^^^ secret_key = monitored_index then sim.hit_cycles
         else sim.miss_cycles)
    ∧ (sim.simulate_batch plaintexts secret_key monitored_index us).2
      = (plaintexts.zip us).map (fun pu =>
          if pu.1 ^^^ secret_key = monitored_index then sim.hit_cycles
          else sim.miss_cycles) := by
  constructor
  · simp only [CacheTimeSimulator.calculate_timing, gaussian_noise, h0,
      zero_mul, add_zero]
    split
    · exact max_eq_right hh
    · exact max_eq_right hm
  · simp only [CacheTimeSimulator.simulate_batch, gaussian_noise, h0,
      zero_mul, add_zero]
    refine List.map_congr_left (fun pu _ => ?_)
    split
    · exact max_eq_right hh
    · exact max_eq_right hm

/-- Witness for C1 at concrete inputs: plaintext 3 with key 0 gives index 3,
which misses the monitored line 94; in the batch, plaintext 94 with key 0
hits the monitored line 94 while plaintext 1 misses it. -/
theorem C1_cache_noise_free_exact_witness :
    CacheTimeSimulator.calculate_timing ⟨45, 180, 0⟩ (3 ^^^ 0) 94 2 = 180
    ∧ (CacheTimeSimulator.simulate_batch ⟨45, 180, 0⟩ [1, 94] 0 94
        [2, 3]).2 = [180, 45] := by
  have h := C1_cache_noise_free_exact ⟨45, 180, 0⟩ rfl (by norm_num)
    (by norm_num) 3 0 94 2 [1, 94] [2, 3]
  constructor
  · rw [h.1, if_neg (by decide : ¬(3 ^^^ 0 = 94))]
  · rw [h.2, show [1, 94].zip [2, 3] = [(1, (2 : ℚ)), (94, 3)] from rfl,
      List.map_cons, List.map_cons, List.map_nil,
      if_neg (by decide : ¬(1 ^^^ 0 = 94)),
      if_pos (by decide : 94 ^^^ 0 = 94)]

/-- Counterexample to claim C5: with base_time 100, char_delay 20 and a zero
noise draw, vulnerable_compare of admin against xxxxx returns 120, not the
base time 100 the claim asserts: the per-character delay is charged before
the mismatch check, so a zero-length matched prefix still costs one
char_delay. -/
theorem C5_zero_match_counterexample :
    TimingSimulator.vulnerable_compare ⟨100, 20, 5⟩ admin_chars xxxxx_chars 0
      = 120 ∧ (120 : ℚ) ≠ 100 := by
  refine ⟨?_, by norm_num⟩
  have hc : compare_loop (20 : ℚ) admin_chars xxxxx_chars = 20 := by
    simp [admin_chars, xxxxx_chars, compare_loop]
  show max 0 ((100 : ℚ) + compare_loop (20 : ℚ) admin_chars xxxxx_chars
    + gaussian_noise 5 0) = 120
  rw [hc, gaussian_noise]
  rw [max_eq_right (show (0 : ℚ) ≤ 100 + 20 + 5 * 0 by norm_num)]
  norm_num

/-- Claim C5 as amended: vulnerable_compare of admin against admin returns
base_time + 5 char_delay plus the noise draw, and against xxxxx returns
base_time + one char_delay plus the noise draw (the delay of position 0 is
added before the mismatch check), both clamped below at 0. -/
theorem C5_admin_compare_times (sim : TimingSimulator) (u : ℚ) :
    sim.vulnerable_compare admin_chars admin_chars u
      = max 0 (sim.base_time + 5 * sim.char_delay + sim.jitter_std * u)
    ∧ sim.vulnerable_compare admin_chars xxxxx_chars u
      = max 0 (sim.base_time + sim.char_delay + sim.jitter_std * u) := by
  have h1 : compare_loop sim.char_delay admin_chars admin_chars
      = 5 * sim.char_delay := by
    simp [admin_chars, compare_loop]
    ring
  have h2 : compare_loop sim.char_delay admin_chars xxxxx_chars
      = sim.char_delay := by
    simp [admin_chars, xxxxx_chars, compare_loop]
  constructor
  · rw [TimingSimulator.vulnerable_compare, gaussian_noise, h1]
  · rw [TimingSimulator.vulnerable_compare, gaussian_noise, h2]

/-- Claim C6, evaluated at the failing input: constructing the cache
simulator with negative noise_std, and the timing simulator with negative
jitter_std, succeeds and silently stores the invalid values; no
configuration error is raised anywhere. -/
theorem C6_no_construction_validation :
    CacheTimeSimulator.make 45 180 (-1) = .ok ⟨45, 180, -1⟩
    ∧ TimingSimulator.make 100 20 (-1) = .ok ⟨100, 20, -1⟩ := by
  exact ⟨rfl, rfl⟩

/-- Claim C7: every measurement produced by calculate_timing, simulate_batch
or vulnerable_compare is nonnegative, for every parameterization, every
input and every noise draw, thanks to the final clamp at 0. -/
theorem C7_measurements_nonneg
    (simC : CacheTimeSimulator) (simT : TimingSimulator)
    (sbox_index monitored_index secret_key mi : Nat) (u v : ℚ)
    (secret user_input : List Char) (plaintexts : List Nat) (us : List ℚ) :
    0 ≤ simC.calculate_timing sbox_index monitored_index u
    ∧ (∀ t ∈ (simC.simulate_batch plaintexts secret_key mi us).2, 0 ≤ t)
    ∧ 0 ≤ simT.vulnerable_compare secret user_input v := by
  refine ⟨le_max_left 0 _, ?_, le_max_left 0 _⟩
  intro t ht
  simp only [CacheTimeSimulator.simulate_batch, List.mem_map] at ht
  obtain ⟨pu, _, rfl⟩ := ht
  exact le_max_left 0 _

/-- A single calculate_power call yields at least the base power whenever the
leakage and transition coefficients are nonnegative: the other two terms of
the linear power model are products of nonnegative factors. -/
theorem base_le_calculate_power (sim : HammingPowerSimulator) (cur : Nat)
    (prevOpt : Option Nat) (hl : 0 ≤ sim.leakage_power)
    (ht : 0 ≤ sim.transition_power) :
    sim.base_power ≤ (sim.calculate_power cur prevOpt).1 := by
  show sim.base_power ≤ sim.base_power
    + sim.leakage_power * (hamming_weight cur : ℚ)
    + sim.transition_power
      * (hamming_distance cur (prevOpt.getD sim.previous_value) : ℚ)
  have h1 : 0 ≤ sim.leakage_power * (hamming_weight cur : ℚ) :=
    mul_nonneg hl (Nat.cast_nonneg _)
  have h2 : 0 ≤ sim.transition_power
      * (hamming_distance cur (prevOpt.getD sim.previous_value) : ℚ) :=
    mul_nonneg ht (Nat.cast_nonneg _)
  linarith

/-- Every entry of a simulate_from trace is at least the base power, given
nonnegative leakage and transition coefficients; the parameters are preserved
by the state updates, so induction over the data sequence applies. -/
theorem base_le_simulate_from (data : List Nat) :
    ∀ (sim : HammingPowerSimulator), 0 ≤ sim.leakage_power →
      0 ≤ sim.transition_power →
      ∀ p ∈ (simulate_from sim data).1, sim.base_power ≤ p := by
  induction data with
  | nil =>
    intro sim _ _ p hp
    simp [simulate_from] at hp
  | cons v vs ih =>
    intro sim hl ht p hp
    simp only [simulate_from, List.mem_cons] at hp
    rcases hp with rfl | hp
    · exact base_le_calculate_power sim v none hl ht
    · exact ih (sim.calculate_power v none).2 hl ht p hp

/-- Claim C8: with nonnegative base, leakage and transition coefficients,
every power value returned by calculate_power, and every entry of every
simulate_sequence trace, is at least base_power; no clamping is involved
because each term of the power model is nonnegative. -/
theorem C8_power_at_least_base
    (sim : HammingPowerSimulator) (hb : 0 ≤ sim.base_power)
    (hl : 0 ≤ sim.leakage_power) (ht : 0 ≤ sim.transition_power)
    (cur : Nat) (prevOpt : Option Nat) (data : List Nat) (reset : Bool) :
    sim.base_power ≤ (sim.calculate_power cur prevOpt).1
    ∧ ∀ p ∈ (sim.simulate_sequence data reset).1, sim.base_power ≤ p := by
  refine ⟨base_le_calculate_power sim cur prevOpt hl ht, ?_⟩
  intro p hp
  cases reset
  · exact base_le_simulate_from data sim hl ht p hp
  · exact base_le_simulate_from data { sim with previous_value := 0 }
      hl ht p hp

/-- Witness for C8 with the default simulator parameters, a single call on
the value 3, and the reset sequence of the values 0 and 255. -/
theorem C8_power_at_least_base_witness :
    (1 : ℚ) ≤ ((⟨8, 1, 1/2, 1/10, 0⟩ :
      HammingPowerSimulator).calculate_power 3 none).1
    ∧ ∀ p ∈ ((⟨8, 1, 1/2, 1/10, 0⟩ :
        HammingPowerSimulator).simulate_sequence [0, 255] true).1,
        (1 : ℚ) ≤ p :=
  C8_power_at_least_base ⟨8, 1, 1/2, 1/10, 0⟩ (by norm_num) (by norm_num)
    (by norm_num) 3 none [0, 255] true

/-- Claim C9 (with the positivity of the transition coefficient the claim's
causal reading presumes, satisfied by the default 0.5): the second power
value of the reset sequence 0x00, 0xFF strictly exceeds the second power
value of the reset sequence 0xFF, 0xFF, because the latter has zero bit
transitions at its second step. -/
theorem C9_second_value_order_dependent
    (sim : HammingPowerSimulator) (ht : 0 < sim.transition_power) :
    ((sim.simulate_sequence [0xFF, 0xFF] true).1).getD 1 0
      < ((sim.simulate_sequence [0x00, 0xFF] true).1).getD 1 0 := by
  have e1 : ((sim.simulate_sequence [0xFF, 0xFF] true).1).getD 1 0
      = sim.base_power + sim.leakage_power * (hamming_weight 255 : ℚ)
        + sim.transition_power * (hamming_distance 255 255 : ℚ) := rfl
  have e2 : ((sim.simulate_sequence [0x00, 0xFF] true).1).getD 1 0
      = sim.base_power + sim.leakage_power * (hamming_weight 255 : ℚ)
        + sim.transition_power * (hamming_distance 255 0 : ℚ) := rfl
  rw [e1, e2, show hamming_distance 255 255 = 0 from by decide,
    show hamming_distance 255 0 = 8 from by decide]
  push_cast
  linarith

/-- Witness for C9 with the default simulator parameters. -/
theorem C9_second_value_order_dependent_witness :
    (((⟨8, 1, 1/2, 1/10, 0⟩ :
        HammingPowerSimulator).simulate_sequence [0xFF, 0xFF] true).1).getD 1 0
      < (((⟨8, 1, 1/2, 1/10, 0⟩ :
        HammingPowerSimulator).simulate_sequence [0x00, 0xFF] true).1).getD
        1 0 :=
  C9_second_value_order_dependent ⟨8, 1, 1/2, 1/10, 0⟩ (by norm_num)

/-- Claim C10: calculate_power with an explicitly supplied previous value
computes the power from the supplied argument only (the formula does not
mention the stored field), yet still overwrites the stored previous_value
with current_value, so a subsequent implicit-previous call behaves as if the
explicit call's current value had been stored. -/
theorem C10_explicit_previous_frame_effect
    (sim : HammingPowerSimulator) (cur prev next : Nat) :
    (sim.calculate_power cur (some prev)).1
      = sim.base_power + sim.leakage_power * (hamming_weight cur : ℚ)
        + sim.transition_power * (hamming_distance cur prev : ℚ)
    ∧ (sim.calculate_power cur (some prev)).2.previous_value = cur
    ∧ ((sim.calculate_power cur (some prev)).2.calculate_power next none).1
      = (sim.calculate_power next (some cur)).1 := by
  exact ⟨rfl, rfl, rfl⟩

/-- The initial accumulator bounds a foldl over max from below. -/
theorem le_foldl_max (l : List Nat) (a : Nat) : a ≤ l.foldl max a := by
  induction l generalizing a with
  | nil => exact le_refl a
  | cons x xs ih => exact le_trans (le_max_left a x) (ih (max a x))

/-- Every member of the list bounds a foldl over max from below. -/
theorem mem_le_foldl_max {l : List Nat} {x : Nat} (hx : x ∈ l) (a : Nat) :
    x ≤ l.foldl max a := by
  induction l generalizing a with
  | nil => cases hx
  | cons y ys ih =>
    rcases List.mem_cons.mp hx with rfl | hmem
    · exact le_trans (le_max_right a x) (le_foldl_max ys (max a x))
    · exact ih hmem (max a y)

/-- A foldl over max is bounded by any common upper bound of the accumulator
and the list members. -/
theorem foldl_max_le {l : List Nat} {a b : Nat} (ha : a ≤ b)
    (h : ∀ x ∈ l, x ≤ b) : l.foldl max a ≤ b := by
  induction l generalizing a with
  | nil => exact ha
  | cons y ys ih =>
    exact ih (max_le ha (h y (List.mem_cons_self y ys)))
      (fun x hx => h x (List.mem_cons_of_mem y hx))

/-- A foldl over max is a member of the list or the initial accumulator. -/
theorem foldl_max_mem (l : List Nat) (a : Nat) :
    l.foldl max a ∈ l ∨ l.foldl max a = a := by
  induction l generalizing a with
  | nil => exact Or.inr rfl
  | cons y ys ih =>
    simp only [List.foldl_cons]
    rcases ih (max a y) with hmem | heq
    · exact Or.inl (List.mem_cons_of_mem y hmem)
    · rcases max_choice a y with h1 | h1
      · exact Or.inr (by rw [heq, h1])
      · refine Or.inl ?_
        rw [heq, h1]
        exact List.mem_cons_self y ys

/-- For a nonempty list of naturals, a foldl over max starting at 0 is a
member of the list. -/
theorem foldl_max_zero_mem {l : List Nat} (h : l ≠ []) : l.foldl max 0 ∈ l := by
  cases l with
  | nil => exact absurd rfl h
  | cons x xs =>
    rcases foldl_max_mem (x :: xs) 0 with hm | h0
    · exact hm
    · rw [h0]
      have hx : x ≤ (x :: xs).foldl max 0 :=
        mem_le_foldl_max (List.mem_cons_self x xs) 0
      rw [h0] at hx
      rw [← Nat.le_zero.mp hx]
      exact List.mem_cons_self x xs

/-- Entries strictly before the first occurrence of a value differ from it. -/
theorem getElem_ne_of_lt_indexOf {l : List Nat} {a j : Nat}
    (hj : j < l.length) (hlt : j < l.indexOf a) : l[j] ≠ a := by
  induction l generalizing j with
  | nil => simp at hj
  | cons x xs ih =>
    rw [List.indexOf_cons] at hlt
    cases hxa : (x == a) with
    | true => rw [hxa] at hlt; simp at hlt
    | false =>
      rw [hxa] at hlt
      simp only [cond_false] at hlt
      cases j with
      | zero =>
        simp only [List.getElem_cons_zero]
        intro h
        rw [h] at hxa
        simp at hxa
      | succ k =>
        rw [List.getElem_cons_succ]
        have hk : k < xs.length := by
          simp only [List.length_cons] at hj
          omega
        exact ih hk (by omega)

/-- With all entries below 256, bincount with minlength 256 is the length-256
frequency table. -/
theorem bincount_eq_range_map {l : List Nat} (h : ∀ x ∈ l, x < 256) :
    bincount l 256 = (List.range 256).map (fun k => l.count k) := by
  simp only [bincount]
  cases hl : l.isEmpty with
  | true => rw [if_pos rfl]
  | false =>
    rw [if_neg (by simp)]
    have hle : l.foldl max 0 + 1 ≤ 256 := by
      have : l.foldl max 0 ≤ 255 :=
        foldl_max_le (by norm_num) (fun x hx => by
          have := h x hx
          omega)
      omega
    rw [Nat.max_eq_left hle]

/-- The k-th entry of the length-n table of values of f is f applied to k. -/
theorem getD_range_map {n k : Nat} (f : Nat → Nat) (hk : k < n) :
    ((List.range n).map f).getD k 0 = f k := by
  rw [List.getD_eq_getElem _ _ (by simpa using hk), List.getElem_map]
  congr 1
  exact List.getElem_range _ _

/-- Fast inputs are plaintexts of the sample collection. -/
theorem fast_inputs_subset {plaintexts : List Nat} {timings : List ℚ}
    {threshold : ℚ} {p : Nat}
    (hp : p ∈ fast_inputs plaintexts timings threshold) : p ∈ plaintexts := by
  rw [fast_inputs] at hp
  obtain ⟨⟨pp, tt⟩, hpr, rfl⟩ := List.mem_map.mp hp
  exact (List.of_mem_zip (List.mem_filter.mp hpr).1).1

/-- One unfolding step of the fast-trace filter. -/
theorem fast_inputs_cons (p : Nat) (t : ℚ) (ps : List Nat) (ts : List ℚ)
    (threshold : ℚ) :
    fast_inputs (p :: ps) (t :: ts) threshold
      = if t < threshold then p :: fast_inputs ps ts threshold
        else fast_inputs ps ts threshold := by
  simp only [fast_inputs, List.zip_cons_cons, List.filter_cons]
  by_cases h : t < threshold
  · rw [if_pos (by simpa using h), if_pos h, List.map_cons]
  · rw [if_neg (by simpa using h), if_neg h]

/-- Master characterization of recover_key in the presence of at least one
fast sample: it returns some guess g below 256 whose tally is maximal among
all 256 byte values, with every value numerically below g having a strictly
smaller tally (first-occurrence argmax), and the confidence is the tally of g
divided by the number of fast samples. -/
theorem recover_key_spec (plaintexts : List Nat) (timings : List ℚ)
    (monitored_index : Nat) (threshold : ℚ)
    (hpt : ∀ p ∈ plaintexts, p < 256) (hmon : monitored_index < 256)
    (hne : fast_inputs plaintexts timings threshold ≠ []) :
    ∃ g : Nat, g < 256
      ∧ recover_key plaintexts timings monitored_index threshold
        = ((g : Int),
          (guess_tally plaintexts timings monitored_index threshold g : ℚ)
            / ((fast_inputs plaintexts timings threshold).length : ℚ))
      ∧ (∀ k, k < 256 →
          guess_tally plaintexts timings monitored_index threshold k
            ≤ guess_tally plaintexts timings monitored_index threshold g)
      ∧ (∀ k, k < g →
          guess_tally plaintexts timings monitored_index threshold k
            < guess_tally plaintexts timings monitored_index threshold g) := by
  set F := fast_inputs plaintexts timings threshold with hF
  set G := F.map (fun p => p ^^^ monitored_index) with hG
  have hGlt : ∀ x ∈ G, x < 256 := by
    intro x hx
    rw [hG] at hx
    obtain ⟨p, hp, rfl⟩ := List.mem_map.mp hx
    have hp256 : p < 256 := hpt p (fast_inputs_subset (hF ▸ hp))
    have h8 : (256 : Nat) = 2 ^ 8 := by norm_num
    rw [h8] at hp256 hmon ⊢
    exact Nat.xor_lt_two_pow hp256 hmon
  have hGne : G ≠ [] := by
    rw [hG]
    intro h
    exact hne (List.map_eq_nil_iff.mp h)
  have hbc : bincount G 256 = (List.range 256).map (fun k => G.count k) :=
    bincount_eq_range_map hGlt
  have hClen : ((List.range 256).map (fun k => G.count k)).length = 256 := by
    simp
  have hCne : ((List.range 256).map (fun k => G.count k)) ≠ [] := by
    intro h
    rw [h] at hClen
    simp at hClen
  set C := (List.range 256).map (fun k => G.count k) with hC
  have hMmem : C.foldl max 0 ∈ C := foldl_max_zero_mem hCne
  have hilt : C.indexOf (C.foldl max 0) < C.length :=
    List.indexOf_lt_length.mpr hMmem
  have hg256 : np_argmax C < 256 := by
    rw [np_argmax, ← hClen]
    exact hilt
  have hCgetg : C.getD (np_argmax C) 0 = C.foldl max 0 := by
    have h1 := List.indexOf_get hilt
    rw [np_argmax, List.getD_eq_getElem _ _ hilt]
    simpa using h1
  have hCk : ∀ k, k < 256 → C.getD k 0 = G.count k := by
    intro k hk
    rw [hC]
    exact getD_range_map _ hk
  have htally : ∀ k,
      guess_tally plaintexts timings monitored_index threshold k
        = G.count k := fun k => rfl
  have hcond : ¬(F.isEmpty = true) := by
    simp only [List.isEmpty_iff]
    exact hne
  have hrk : recover_key plaintexts timings monitored_index threshold
      = ((np_argmax (bincount G 256) : Int),
        ((bincount G 256).getD (np_argmax (bincount G 256)) 0 : ℚ)
          / (G.length : ℚ)) := by
    simp only [recover_key]
    rw [if_neg hcond]
  have hlen2 : (G.length : ℚ) = (F.length : ℚ) := by
    rw [hG, List.length_map]
  refine ⟨np_argmax C, hg256, ?_, ?_, ?_⟩
  · rw [hrk, hbc]
    rw [htally]
    rw [hCk (np_argmax C) hg256]
    rw [hlen2]
  · intro k hk
    rw [htally, htally, ← hCk k hk, ← hCk (np_argmax C) hg256, hCgetg]
    rw [List.getD_eq_getElem _ _ (by rw [hClen]; exact hk)]
    exact mem_le_foldl_max (List.getElem_mem _) 0
  · intro k hk
    have hk256 : k < 256 := lt_trans hk hg256
    rw [htally, htally, ← hCk k hk256, ← hCk (np_argmax C) hg256, hCgetg]
    have hkC : k < C.length := by rw [hClen]; exact hk256
    rw [List.getD_eq_getElem _ _ hkC]
    have hle : C[k] ≤ C.foldl max 0 := mem_le_foldl_max (List.getElem_mem _) 0
    have hneq : C[k] ≠ C.foldl max 0 := by
      apply getElem_ne_of_lt_indexOf hkC
      rw [np_argmax] at hk
      exact hk
    exact lt_of_le_of_ne hle hneq

/-- Claim C2: whenever at least one sample's timing is below the threshold,
recover_key returns a guess below 256 whose tally of XOR key hypotheses over
the fast samples is maximal among all 256 byte values — ties broken by the
lowest numeric value, in that every value numerically below the guess has a
strictly smaller tally — and a confidence equal to the winning tally divided
by the number of fast samples. -/
theorem C2_recover_key_majority_vote
    (plaintexts : List Nat) (timings : List ℚ)
    (monitored_index : Nat) (threshold : ℚ)
    (hlen : plaintexts.length = timings.length)
    (hpt : ∀ p ∈ plaintexts, p < 256) (hmon : monitored_index < 256)
    (hfast : ∃ pr ∈ plaintexts.zip timings, pr.2 < threshold) :
    ∃ g : Nat, g < 256
      ∧ recover_key plaintexts timings monitored_index threshold
        = ((g : Int),
          (guess_tally plaintexts timings monitored_index threshold g : ℚ)
            / ((fast_inputs plaintexts timings threshold).length : ℚ))
      ∧ (∀ k, k < 256 →
          guess_tally plaintexts timings monitored_index threshold k
            ≤ guess_tally plaintexts timings monitored_index threshold g)
      ∧ (∀ k, k < g →
          guess_tally plaintexts timings monitored_index threshold k
            < guess_tally plaintexts timings monitored_index threshold g) := by
  obtain ⟨pr, hmem, hlt⟩ := hfast
  have hne : fast_inputs plaintexts timings threshold ≠ [] := by
    intro hnil
    have hpr : pr.1 ∈ fast_inputs plaintexts timings threshold := by
      rw [fast_inputs]
      exact List.mem_map_of_mem Prod.fst
        (List.mem_filter.mpr ⟨hmem, by simpa using hlt⟩)
    rw [hnil] at hpr
    simp at hpr
  exact recover_key_spec plaintexts timings monitored_index threshold
    hpt hmon hne

/-- Witness for C2 on the two samples (1, 50) and (2, 150) with monitored
index 5 and threshold 100: only the first sample is fast. -/
theorem C2_recover_key_majority_vote_witness :
    ∃ g : Nat, g < 256
      ∧ recover_key [1, 2] [50, 150] 5 100
        = ((g : Int), (guess_tally [1, 2] [50, 150] 5 100 g : ℚ)
            / ((fast_inputs [1, 2] [50, 150] 100).length : ℚ))
      ∧ (∀ k, k < 256 → guess_tally [1, 2] [50, 150] 5 100 k
          ≤ guess_tally [1, 2] [50, 150] 5 100 g)
      ∧ (∀ k, k < g → guess_tally [1, 2] [50, 150] 5 100 k
          < guess_tally [1, 2] [50, 150] 5 100 g) := by
  refine C2_recover_key_majority_vote [1, 2] [50, 150] 5 100 rfl (by decide)
    (by decide) ⟨((1 : Nat), (50 : ℚ)), ?_, by norm_num⟩
  show ((1 : Nat), (50 : ℚ)) ∈ [((1 : Nat), (50 : ℚ)), ((2 : Nat), (150 : ℚ))]
  exact List.mem_cons_self _ _

/-- When no sample's timing is below the threshold, the fast-sample filter is
empty and recover_key returns the sentinel pair. -/
theorem recover_key_of_no_fast (plaintexts : List Nat) (timings : List ℚ)
    (monitored_index : Nat) (threshold : ℚ)
    (h : ∀ pr ∈ plaintexts.zip timings, ¬ pr.2 < threshold) :
    recover_key plaintexts timings monitored_index threshold = (-1, 0) := by
  have hemp : fast_inputs plaintexts timings threshold = [] := by
    rw [fast_inputs,
      List.filter_eq_nil_iff.mpr (fun a ha => by simpa using h a ha)]
    rfl
  simp [recover_key, hemp]

/-- Claim C4: on any input in which no measurement is strictly below the
threshold — the empty sample set included — recover_key returns the sentinel
-1 with confidence 0; being a total function, it raises no exception. -/
theorem C4_no_fast_returns_unknown (plaintexts : List Nat) (timings : List ℚ)
    (monitored_index : Nat) (threshold : ℚ)
    (h : ∀ pr ∈ plaintexts.zip timings, ¬ pr.2 < threshold) :
    recover_key plaintexts timings monitored_index threshold = (-1, 0) :=
  recover_key_of_no_fast plaintexts timings monitored_index threshold h

/-- Witness for C4 on the single sample (3, 180) with threshold 100. -/
theorem C4_no_fast_returns_unknown_witness :
    recover_key [3] [180] 94 100 = (-1, 0) := by
  refine C4_no_fast_returns_unknown [3] [180] 94 100 ?_
  intro pr hpr
  have h2 : pr ∈ [((3 : Nat), (180 : ℚ))] := hpr
  rw [List.mem_singleton.mp h2]
  norm_num

/-- One unfolding step of the timing list of simulate_batch. -/
theorem simulate_batch_cons (sim : CacheTimeSimulator) (p : Nat)
    (ps : List Nat) (secret_key monitored_index : Nat) (u : ℚ)
    (us : List ℚ) :
    (sim.simulate_batch (p :: ps) secret_key monitored_index (u :: us)).2
      = max 0 ((if p ^^^ secret_key = monitored_index then sim.hit_cycles
          else sim.miss_cycles) + gaussian_noise sim.noise_std u)
        :: (sim.simulate_batch ps secret_key monitored_index us).2 := rfl

/-- With zero noise, a hit latency below the threshold and a miss latency at
or above it, the fast samples of a simulated batch are exactly the plaintexts
that hit the monitored cache line. -/
theorem fast_inputs_simulate_batch (sim : CacheTimeSimulator)
    (h0 : sim.noise_std = 0) (hh0 : 0 ≤ sim.hit_cycles) (threshold : ℚ)
    (hht : sim.hit_cycles < threshold) (hmt : threshold ≤ sim.miss_cycles)
    (secret_key monitored_index : Nat) :
    ∀ (plaintexts : List Nat) (us : List ℚ),
      plaintexts.length = us.length →
      fast_inputs plaintexts
        (sim.simulate_batch plaintexts secret_key monitored_index us).2
        threshold
      = plaintexts.filter (fun p => p ^^^ secret_key = monitored_index) := by
  intro plaintexts
  induction plaintexts with
  | nil => intro us _; rfl
  | cons p ps ih =>
    intro us hlen
    cases us with
    | nil => simp at hlen
    | cons u us2 =>
      have hlen2 : ps.length = us2.length := by
        simp only [List.length_cons] at hlen
        omega
      rw [simulate_batch_cons, fast_inputs_cons, ih us2 hlen2]
      by_cases hc : p ^^^ secret_key = monitored_index
      · have ht : max 0 ((if p ^^^ secret_key = monitored_index
            then sim.hit_cycles else sim.miss_cycles)
            + gaussian_noise sim.noise_std u) = sim.hit_cycles := by
          rw [if_pos hc, h0, gaussian_noise, zero_mul, add_zero,
            max_eq_right hh0]
        rw [ht, if_pos hht, List.filter_cons_of_pos (by simpa using hc)]
      · have ht : max 0 ((if p ^^^ secret_key = monitored_index
            then sim.hit_cycles else sim.miss_cycles)
            + gaussian_noise sim.noise_std u) = sim.miss_cycles := by
          rw [if_neg hc, h0, gaussian_noise, zero_mul, add_zero,
            max_eq_right (le_trans (le_trans hh0 (le_of_lt hht)) hmt)]
        rw [ht, if_neg (not_lt.mpr hmt),
          List.filter_cons_of_neg (by simpa using hc)]

/-- Counterexample to claim C3: a batch of 500 noise-free samples whose
plaintexts all equal 1, generated with secret key 0 and monitored index 0,
contains no cache hit, so recover_key returns the sentinel (-1, 0) instead of
the secret 0 with confidence 1. -/
theorem C3_size_alone_not_sufficient :
    recover_key (List.replicate 500 1)
      ((CacheTimeSimulator.simulate_batch ⟨45, 180, 0⟩ (List.replicate 500 1)
        0 0 (List.replicate 500 0)).2) 0 100 = (-1, 0)
    ∧ ((-1 : Int), (0 : ℚ)) ≠ (((0 : Nat) : Int), 1) := by
  constructor
  · have htm : (CacheTimeSimulator.simulate_batch ⟨45, 180, 0⟩
        (List.replicate 500 1) 0 0 (List.replicate 500 0)).2
        = List.replicate 500 (180 : ℚ) := by
      simp only [CacheTimeSimulator.simulate_batch, List.zip_replicate,
        min_self, List.map_replicate]
      congr 1
      rw [if_neg (by decide : ¬((1 : Nat) ^^^ 0 = 0)), gaussian_noise,
        max_eq_right (by norm_num : (0 : ℚ) ≤ 180 + 0 * 0)]
      norm_num
    rw [htm]
    apply recover_key_of_no_fast
    intro pr hpr
    rw [List.zip_replicate, min_self] at hpr
    rw [List.eq_of_mem_replicate hpr]
    norm_num
  · intro h
    rw [Prod.mk.injEq] at h
    exact absurd h.1 (by norm_num)

/-- Claim C3 as amended: for a noise-free batch whose latencies straddle the
threshold, recover_key recovers the secret with confidence exactly 1 provided
the batch contains at least one hit plaintext (equal to secret XOR monitored
index); the batch size plays no further role. -/
theorem C3_noise_free_recovery_amended (sim : CacheTimeSimulator)
    (h0 : sim.noise_std = 0) (hh0 : 0 ≤ sim.hit_cycles) (threshold : ℚ)
    (hht : sim.hit_cycles < threshold) (hmt : threshold ≤ sim.miss_cycles)
    (secret_key monitored_index : Nat) (hs : secret_key < 256)
    (hmon : monitored_index < 256)
    (plaintexts : List Nat) (us : List ℚ)
    (hlen : plaintexts.length = us.length)
    (hpt : ∀ p ∈ plaintexts, p < 256)
    (hmem : secret_key ^^^ monitored_index ∈ plaintexts) :
    recover_key plaintexts
      (sim.simulate_batch plaintexts secret_key monitored_index us).2
      monitored_index threshold
      = ((secret_key : Int), 1) := by
  set tms := (sim.simulate_batch plaintexts secret_key monitored_index us).2
    with htms
  have hfeq : fast_inputs plaintexts tms threshold
      = plaintexts.filter (fun p => p ^^^ secret_key = monitored_index) :=
    fast_inputs_simulate_batch sim h0 hh0 threshold hht hmt secret_key
      monitored_index plaintexts us hlen
  have hmemF : secret_key ^^^ monitored_index
      ∈ plaintexts.filter (fun p => p ^^^ secret_key = monitored_index) := by
    refine List.mem_filter.mpr ⟨hmem, ?_⟩
    simp only [decide_eq_true_eq]
    rw [Nat.xor_comm secret_key monitored_index, Nat.xor_cancel_right]
  have hFne : fast_inputs plaintexts tms threshold ≠ [] := by
    rw [hfeq]
    exact List.ne_nil_of_mem hmemF
  obtain ⟨g, hg256, heq, hmax, hstrict⟩ :=
    recover_key_spec plaintexts tms monitored_index threshold hpt hmon hFne
  set m := (plaintexts.filter
    (fun p => p ^^^ secret_key = monitored_index)).length with hm
  have hrep : (plaintexts.filter
        (fun p => p ^^^ secret_key = monitored_index)).map
        (fun p => p ^^^ monitored_index)
      = List.replicate m secret_key := by
    refine List.eq_replicate_iff.mpr ⟨by rw [List.length_map], ?_⟩
    intro b hb
    obtain ⟨p, hp, rfl⟩ := List.mem_map.mp hb
    have hcond : p ^^^ secret_key = monitored_index := by
      have h2 := (List.mem_filter.mp hp).2
      simpa using h2
    have hpe : p = monitored_index ^^^ secret_key := by
      calc p = p ^^^ secret_key ^^^ secret_key :=
            (Nat.xor_cancel_right secret_key p).symm
        _ = monitored_index ^^^ secret_key := by rw [hcond]
    rw [hpe, Nat.xor_comm monitored_index secret_key, Nat.xor_cancel_right]
  have htallyk : ∀ k, guess_tally plaintexts tms monitored_index threshold k
      = if secret_key == k then m else 0 := by
    intro k
    rw [guess_tally, hfeq, hrep, List.count_replicate]
  have hmpos : 0 < m := by
    rw [hm]
    exact List.length_pos.mpr (List.ne_nil_of_mem hmemF)
  have hgs : g = secret_key := by
    by_contra hne2
    have hbe : ¬((secret_key == g) = true) := by
      simp only [beq_iff_eq]
      exact fun h => hne2 h.symm
    have h1 := hmax secret_key hs
    rw [htallyk secret_key, htallyk g,
      if_pos (by simp : (secret_key == secret_key) = true), if_neg hbe] at h1
    omega
  subst hgs
  have hne0 : ((m : ℚ)) ≠ 0 :=
    ne_of_gt (by exact_mod_cast hmpos)
  rw [heq, htallyk g,
    if_pos (by simp : (g == g) = true), hfeq, ← hm, div_self hne0]

/-- Witness for the amended C3 with secret 0x5A = 90, monitored index 94, a
two-sample batch whose first plaintext 4 = 90 XOR 94 hits the cache line. -/
theorem C3_noise_free_recovery_amended_witness :
    recover_key [4, 7]
      ((CacheTimeSimulator.simulate_batch ⟨45, 180, 0⟩ [4, 7] 90 94
        [0, 0]).2) 94 100
      = (((90 : Nat) : Int), 1) :=
  C3_noise_free_recovery_amended ⟨45, 180, 0⟩ rfl (by norm_num) 100
    (by norm_num) (by norm_num) 90 94 (by norm_num) (by norm_num) [4, 7]
    [0, 0] rfl (by decide) (by decide)
